import Mathlib

/-!
Verification of the iabconsent vendor-consent-string decoder.

The Go sources under verification are `parse.go` (the `ConsentReader`
helpers and `Parse`) and `parsed_consent.go` (the `ParsedConsent` record
and its query methods `EveryPurposeAllowed` and `VendorAllowed`).  The
bit-level reader itself lives in the external dependency
`github.com/rupertchen/go-bits`, and the base64 transport decoding in the
Go standard library; both are outside the repository, so they are
modelled here from the design document.  Go `map[int]bool` values are
represented by the ascending list of keys bound to `true`; Go `time.Time`
values by their Unix seconds and nanoseconds.
-/

namespace Iabconsent

/-- Modelled from the spec: the BitReader of the external dependency
`github.com/rupertchen/go-bits` is a cursor over a byte sequence, read
left to right, most significant bit first within each byte, tracking how
many bits have been consumed.  Bytes are naturals below 256. -/
structure Reader where
  data : List Nat
  pos : Nat
  deriving Repr, DecidableEq

/-- Modelled from the spec: reading a single bit at the cursor.  A read
past the end of the buffer fails (the `OutOfRange` failure, which the Go
reader raises as a panic). -/
def readBit (r : Reader) : Option (Nat × Reader) :=
  if r.pos < 8 * r.data.length then
    some (((r.data.getD (r.pos / 8) 0) >>> (7 - r.pos % 8)) % 2,
      ⟨r.data, r.pos + 1⟩)
  else
    none

/-- Modelled from the spec: `readUint(n)` consumes the next `n` bits as an
unsigned big-endian integer and advances the cursor by `n`; it fails when
fewer than `n` bits remain. -/
def readBits (r : Reader) : Nat → Option (Nat × Reader)
  | 0 => some (0, r)
  | n + 1 =>
    match readBits r n with
    | none => none
    | some (v, r1) =>
      match readBit r1 with
      | none => none
      | some (b, r2) => some (2 * v + b, r2)

/-- Modelled from the spec: `readBool` is `readUint(1) != 0`. -/
def readBool (r : Reader) : Option (Bool × Reader) :=
  match readBits r 1 with
  | none => none
  | some (v, r1) => some (v != 0, r1)

/-- Modelled from the spec: `remainingBits` reports how many unconsumed
bits remain (`NumUnread` on the Go reader). -/
def numUnread (r : Reader) : Nat := 8 * r.data.length - r.pos

/-- Go `time.Time` instants, represented by Unix seconds and the
sub-second remainder in nanoseconds (the decoder only ever builds times
through `time.Unix(sec, nsec).UTC()` with `0 ≤ nsec < 10^9`). -/
structure GoTime where
  sec : Int
  nsec : Int
  deriving Repr, DecidableEq

/-- Conversion of an unsigned 64-bit value to a signed Go `int`, as in
`int(r.ReadBits(n))` in `parse.go`. -/
def toInt64 (v : Nat) : Int :=
  if v < 2 ^ 63 then (v : Int) else (v : Int) - 2 ^ 64

/-- `ReadInt` from `parse.go`: `int(r.ReadBits(n))`. -/
def readInt (r : Reader) (n : Nat) : Option (Int × Reader) :=
  match readBits r n with
  | none => none
  | some (v, r1) => some (toInt64 v, r1)

/-- `dsPerS` from `parse.go`: deciseconds per second. -/
def dsPerS : Nat := 10

/-- `nsPerDs` from `parse.go`: nanoseconds per decisecond. -/
def nsPerDs : Nat := 100000000

/-- `ReadTime` from `parse.go`: 36 bits of deciseconds since the Unix
epoch, returned as `time.Unix(ds/dsPerS, (ds%dsPerS)*nsPerDs).UTC()`. -/
def readTime (r : Reader) : Option (GoTime × Reader) :=
  match readBits r 36 with
  | none => none
  | some (ds, r1) => some (⟨(ds / dsPerS : Nat), ((ds % dsPerS) * nsPerDs : Nat)⟩, r1)

/-- The character run of `ReadString` from `parse.go`: each iteration
appends `byte(r.ReadBits(6)) + 0x41`, the byte addition being modulo 256. -/
def readChars (r : Reader) : Nat → Option (List Char × Reader)
  | 0 => some ([], r)
  | n + 1 =>
    match readBits r 6 with
    | none => none
    | some (v, r1) =>
      match readChars r1 n with
      | none => none
      | some (cs, r2) => some (Char.ofNat ((65 + v) % 256) :: cs, r2)

/-- `ReadString` from `parse.go` (the revision used by `Parse`, whose
letter base is the uppercase 0x41). -/
def readString (r : Reader) (n : Nat) : Option (String × Reader) :=
  match readChars r n with
  | none => none
  | some (cs, r1) => some (String.mk cs, r1)

/-- The loop of `ReadBitField` from `parse.go`: iteration `i` reads one
bit and, when it is set, adds key `i+1` to the map.  `i` is the index of
the next iteration and the second argument counts remaining iterations. -/
def readBitFieldGo (r : Reader) (i : Nat) : Nat → Option (List Int × Reader)
  | 0 => some ([], r)
  | n + 1 =>
    match readBool r with
    | none => none
    | some (b, r1) =>
      match readBitFieldGo r1 (i + 1) n with
      | none => none
      | some (ids, r2) =>
        some ((if b then ((i : Int) + 1) :: ids else ids), r2)

/-- `ReadBitField` from `parse.go` (also named `ReadPurposes` in sibling
revisions): `n` bits, bit `i` set meaning member `i+1`. -/
def readBitField (r : Reader) (n : Nat) : Option (List Int × Reader) :=
  readBitFieldGo r 0 n

/-- `RangeEntry` from `parsed_consent.go`. -/
structure RangeEntry where
  StartVendorID : Int
  EndVendorID : Int
  deriving Repr, DecidableEq

/-- The body of the `ReadRangeEntries` loop from `parse.go`: one entry
reads a 1-bit range flag, a 16-bit start, and a further 16-bit end only
when the flag is set, otherwise the end equals the start. -/
def readRangeEntry (r : Reader) : Option (RangeEntry × Reader) :=
  match readBool r with
  | none => none
  | some (isRange, r1) =>
    match readInt r1 16 with
    | none => none
    | some (st, r2) =>
      if isRange then
        match readInt r2 16 with
        | none => none
        | some (en, r3) => some (⟨st, en⟩, r3)
      else some (⟨st, st⟩, r2)

/-- `ReadRangeEntries` from `parse.go`: `n` iterations of the entry
loop, appending the entries in decode order. -/
def readRangeEntries (r : Reader) : Nat → Option (List RangeEntry × Reader)
  | 0 => some ([], r)
  | n + 1 =>
    match readRangeEntry r with
    | none => none
    | some (e, r1) =>
      match readRangeEntries r1 n with
      | none => none
      | some (es, r2) => some (e :: es, r2)

/-- Modelled from the spec: the value of one character of the URL-safe
base64 alphabet used by the external transport decoder
(`base64.RawURLEncoding` in the Go standard library). -/
def b64Val (c : Char) : Option Nat :=
  if 'A' ≤ c ∧ c ≤ 'Z' then some (c.toNat - 65)
  else if 'a' ≤ c ∧ c ≤ 'z' then some (c.toNat - 97 + 26)
  else if '0' ≤ c ∧ c ≤ '9' then some (c.toNat - 48 + 52)
  else if c = '-' then some 62
  else if c = '_' then some 63
  else none

/-- The `n` bits of value `v`, most significant first. -/
def bitsOf (v n : Nat) : List Nat :=
  (List.range n).map fun i => (v >>> (n - 1 - i)) % 2

/-- Regroups a bit sequence into bytes, dropping a trailing incomplete
byte (the trailing bits of the final base64 quantum). -/
def bytesOfBits : List Nat → List Nat
  | b0 :: b1 :: b2 :: b3 :: b4 :: b5 :: b6 :: b7 :: rest =>
    (b0 * 128 + b1 * 64 + b2 * 32 + b3 * 16 + b4 * 8 + b5 * 4 + b6 * 2 + b7)
      :: bytesOfBits rest
  | _ => []

/-- Modelled from the spec: the external URL-safe unpadded base64 decoder
(`base64.RawURLEncoding.DecodeString`).  It fails on a character outside
the alphabet and on an input whose length is 1 modulo 4; otherwise the
6-bit character values are concatenated most significant bit first and
regrouped into bytes. -/
def base64Decode (s : String) : Option (List Nat) :=
  if s.length % 4 = 1 then none
  else
    match s.data.mapM b64Val with
    | none => none
    | some vs => some (bytesOfBits (vs.flatMap fun v => bitsOf v 6))

/-- `ParsedConsent` from `parsed_consent.go`.  Go maps from `int` to
`bool` are represented by the ascending list of keys bound to `true`; the
vendor set field keeps the unexported name `approvedVendorIDs` of
`parsed_consent.go` (the `Parse` revision under test writes it as its
vendor bit-field destination). -/
structure ParsedConsent where
  Version : Int
  Created : GoTime
  LastUpdated : GoTime
  CMPID : Int
  CMPVersion : Int
  ConsentScreen : Int
  ConsentLanguage : String
  VendorListVersion : Int
  PurposesAllowed : List Int
  MaxVendorID : Int
  IsRangeEncoding : Bool
  approvedVendorIDs : List Int
  DefaultConsent : Bool
  NumEntries : Int
  RangeEntries : List RangeEntry
  deriving Repr, DecidableEq

/-- The zero value `&ParsedConsent{}` allocated at the start of `Parse`
(the zero instant is represented by zero seconds and nanoseconds). -/
def ParsedConsent.zero : ParsedConsent :=
  ⟨0, ⟨0, 0⟩, ⟨0, 0⟩, 0, 0, 0, "", 0, [], 0, false, [], false, 0, []⟩

/-- `EveryPurposeAllowed` from `parsed_consent.go`: iterate over the
requested ids and return false at the first id not bound to true in
`PurposesAllowed`. -/
def EveryPurposeAllowed (p : ParsedConsent) : List Int → Bool
  | [] => true
  | rp :: rest =>
    if p.PurposesAllowed.contains rp then EveryPurposeAllowed p rest
    else false

/-- The range-entry scan inside `VendorAllowed` of `parsed_consent.go`:
the first entry whose inclusive bounds contain `v` returns the negation
of the default, and falling off the loop returns the default. -/
def scanEntries (v : Int) (dflt : Bool) : List RangeEntry → Bool
  | [] => dflt
  | e :: rest =>
    if e.StartVendorID ≤ v ∧ v ≤ e.EndVendorID then !dflt
    else scanEntries v dflt rest

/-- `VendorAllowed` from `parsed_consent.go`. -/
def VendorAllowed (p : ParsedConsent) (v : Int) : Bool :=
  if p.IsRangeEncoding then scanEntries v p.DefaultConsent p.RangeEntries
  else p.approvedVendorIDs.contains v

/-- The two error sources of `Parse`: a base64 transport failure
(returned directly) and a reader panic recovered into an error by the
deferred handler. -/
inductive ParseErr where
  | corruptInput : ParseErr
  | outOfRange : ParseErr
  deriving Repr, DecidableEq

/-- One field read of `Parse`: when the read panics, the deferred
`recover` turns the panic into an error, and the named return `p` holds
the record populated so far. -/
def readStep {α : Type} (p : ParsedConsent) (read : Option (α × Reader))
    (k : α → Reader → ParsedConsent × Option ParseErr) :
    ParsedConsent × Option ParseErr :=
  match read with
  | none => (p, some ParseErr.outOfRange)
  | some (a, r) => k a r

/-- The field-decoding body of `Parse` from `parse.go`, run after a
successful base64 decode: the fixed field sequence, the encoding-mode
branch, and the partially populated named return on failure. -/
def parseBody (b : List Nat) : ParsedConsent × Option ParseErr :=
  let r0 : Reader := ⟨b, 0⟩
  let p0 := ParsedConsent.zero
  readStep p0 (readInt r0 6) fun v r1 =>
  let p1 := { p0 with Version := v }
  readStep p1 (readTime r1) fun t r2 =>
  let p2 := { p1 with Created := t }
  readStep p2 (readTime r2) fun t2 r3 =>
  let p3 := { p2 with LastUpdated := t2 }
  readStep p3 (readInt r3 12) fun cid r4 =>
  let p4 := { p3 with CMPID := cid }
  readStep p4 (readInt r4 12) fun cv r5 =>
  let p5 := { p4 with CMPVersion := cv }
  readStep p5 (readInt r5 6) fun cs r6 =>
  let p6 := { p5 with ConsentScreen := cs }
  readStep p6 (readString r6 2) fun cl r7 =>
  let p7 := { p6 with ConsentLanguage := cl }
  readStep p7 (readInt r7 12) fun vlv r8 =>
  let p8 := { p7 with VendorListVersion := vlv }
  readStep p8 (readBitField r8 24) fun pa r9 =>
  let p9 := { p8 with PurposesAllowed := pa }
  readStep p9 (readInt r9 16) fun mv r10 =>
  let p10 := { p9 with MaxVendorID := mv }
  readStep p10 (readBool r10) fun isR r11 =>
  let p11 := { p10 with IsRangeEncoding := isR }
  if isR then
    readStep p11 (readBool r11) fun dc r12 =>
    let p12 := { p11 with DefaultConsent := dc }
    readStep p12 (readInt r12 12) fun ne r13 =>
    let p13 := { p12 with NumEntries := ne }
    readStep p13 (readRangeEntries r13 ne.toNat) fun es _ =>
    ({ p13 with RangeEntries := es }, none)
  else
    readStep p11 (readBitField r11 mv.toNat) fun av _ =>
    ({ p11 with approvedVendorIDs := av }, none)

/-- `Parse` from `parse.go`: base64-decode the input, then run the field
sequence; the result pair mirrors the named returns `(p, err)`. -/
def Parse (s : String) : Option ParsedConsent × Option ParseErr :=
  match base64Decode s with
  | none => (none, some ParseErr.corruptInput)
  | some b =>
    match parseBody b with
    | (p, e) => (some p, e)

/-! Basic facts about the bit reader. -/

theorem readBit_sound {r : Reader} {b : Nat} {r2 : Reader}
    (h : readBit r = some (b, r2)) :
    r2 = ⟨r.data, r.pos + 1⟩ ∧ b < 2 ∧ r.pos + 1 ≤ 8 * r.data.length := by
  unfold readBit at h
  split at h
  · rename_i hlt
    injection h with h
    injection h with hb hr
    subst hb; subst hr
    exact ⟨rfl, Nat.mod_lt _ (by omega), by omega⟩
  · exact absurd h (by simp)

theorem readBit_isSome {r : Reader} (h : r.pos + 1 ≤ 8 * r.data.length) :
    ∃ b r2, readBit r = some (b, r2) := by
  unfold readBit
  rw [if_pos (by omega)]
  exact ⟨_, _, rfl⟩

theorem readBits_sound {n : Nat} {r : Reader} {v : Nat} {r2 : Reader}
    (h : readBits r n = some (v, r2)) :
    r2 = ⟨r.data, r.pos + n⟩ ∧ v < 2 ^ n ∧
      (0 < n → r.pos + n ≤ 8 * r.data.length) := by
  induction n generalizing v r2 with
  | zero =>
    unfold readBits at h
    injection h with h
    injection h with hv hr
    subst hv; subst hr
    exact ⟨by cases r with | mk d q => rfl, by omega, by omega⟩
  | succ n ih =>
    unfold readBits at h
    cases h1 : readBits r n with
    | none => rw [h1] at h; exact absurd h (by simp)
    | some a =>
      obtain ⟨v1, r1⟩ := a
      rw [h1] at h
      dsimp only at h
      obtain ⟨hr1, hv1, _⟩ := ih h1
      cases h2 : readBit r1 with
      | none => rw [h2] at h; exact absurd h (by simp)
      | some a2 =>
        obtain ⟨b, rb⟩ := a2
        rw [h2] at h
        dsimp only at h
        injection h with h
        injection h with hv hr
        subst hv; subst hr
        obtain ⟨hrb, hb, hbd⟩ := readBit_sound h2
        subst hr1
        simp only at hrb hbd
        refine ⟨by simp [hrb]; omega, ?_, fun _ => by omega⟩
        have h2v : 2 * v1 + b < 2 * 2 ^ n := by omega
        calc 2 * v1 + b < 2 * 2 ^ n := h2v
          _ = 2 ^ (n + 1) := by ring

theorem readBits_isSome {n : Nat} {r : Reader}
    (h : r.pos + n ≤ 8 * r.data.length) :
    ∃ v r2, readBits r n = some (v, r2) := by
  induction n with
  | zero => exact ⟨0, r, rfl⟩
  | succ n ih =>
    obtain ⟨v, r1, h1⟩ := ih (by omega)
    obtain ⟨hr1, _, _⟩ := readBits_sound h1
    subst hr1
    obtain ⟨b, r2, h2⟩ := readBit_isSome (r := ⟨r.data, r.pos + n⟩) (by simp; omega)
    refine ⟨2 * v + b, r2, ?_⟩
    simp only [readBits, h1, h2]

theorem readBits_add (n m : Nat) (r : Reader) :
    readBits r (n + m) =
      (readBits r n).bind fun a =>
        (readBits a.2 m).bind fun c => some (a.1 * 2 ^ m + c.1, c.2) := by
  induction m with
  | zero =>
    cases h1 : readBits r n with
    | none => simp [h1]
    | some a => simp [h1, readBits]
  | succ m ih =>
    show readBits r ((n + m) + 1) = _
    simp only [readBits]
    rw [ih]
    cases h1 : readBits r n with
    | none => simp
    | some a =>
      simp only [Option.some_bind]
      cases h2 : readBits a.2 m with
      | none => simp
      | some c =>
        simp only [Option.some_bind]
        cases h3 : readBit c.2 with
        | none => simp
        | some d =>
          simp only [Option.some_bind]
          have harith : 2 * (a.1 * 2 ^ m + c.1) + d.1 =
              a.1 * 2 ^ (m + 1) + (2 * c.1 + d.1) := by ring
          simp [harith]

theorem readBool_sound {r : Reader} {b : Bool} {r2 : Reader}
    (h : readBool r = some (b, r2)) :
    r2 = ⟨r.data, r.pos + 1⟩ ∧ r.pos + 1 ≤ 8 * r.data.length := by
  unfold readBool at h
  cases h1 : readBits r 1 with
  | none => rw [h1] at h; exact absurd h (by simp)
  | some a =>
    obtain ⟨v, r1⟩ := a
    rw [h1] at h
    dsimp only at h
    injection h with h
    injection h with hb hr
    subst hr
    obtain ⟨hr1, _, hbd⟩ := readBits_sound h1
    exact ⟨hr1, hbd (by omega)⟩

theorem readInt_sound {r : Reader} {n : Nat} {v : Int} {r2 : Reader}
    (h : readInt r n = some (v, r2)) :
    r2 = ⟨r.data, r.pos + n⟩ ∧ (0 < n → r.pos + n ≤ 8 * r.data.length) ∧
      ∃ w : Nat, w < 2 ^ n ∧ v = toInt64 w := by
  unfold readInt at h
  cases h1 : readBits r n with
  | none => rw [h1] at h; exact absurd h (by simp)
  | some a =>
    obtain ⟨w, r1⟩ := a
    rw [h1] at h
    dsimp only at h
    injection h with h
    injection h with hv hr
    subst hr; subst hv
    obtain ⟨hr1, hw, hbd⟩ := readBits_sound h1
    exact ⟨hr1, hbd, w, hw, rfl⟩

theorem readTime_sound {r : Reader} {t : GoTime} {r2 : Reader}
    (h : readTime r = some (t, r2)) :
    r2 = ⟨r.data, r.pos + 36⟩ ∧ r.pos + 36 ≤ 8 * r.data.length := by
  unfold readTime at h
  cases h1 : readBits r 36 with
  | none => rw [h1] at h; exact absurd h (by simp)
  | some a =>
    obtain ⟨ds, r1⟩ := a
    rw [h1] at h
    dsimp only at h
    injection h with h
    injection h with ht hr
    subst hr
    obtain ⟨hr1, _, hbd⟩ := readBits_sound h1
    exact ⟨hr1, hbd (by omega)⟩

theorem readChars_sound {n : Nat} {r : Reader} {cs : List Char} {r2 : Reader}
    (h : readChars r n = some (cs, r2)) :
    r2 = ⟨r.data, r.pos + 6 * n⟩ ∧ cs.length = n ∧
      (0 < n → r.pos + 6 * n ≤ 8 * r.data.length) := by
  induction n generalizing r cs r2 with
  | zero =>
    unfold readChars at h
    injection h with h
    injection h with hc hr
    subst hc; subst hr
    exact ⟨by cases r with | mk d q => rfl, rfl, by omega⟩
  | succ n ih =>
    unfold readChars at h
    cases h1 : readBits r 6 with
    | none => rw [h1] at h; exact absurd h (by simp)
    | some a =>
      obtain ⟨v, r1⟩ := a
      rw [h1] at h
      dsimp only at h
      obtain ⟨hr1, _, hbd1⟩ := readBits_sound h1
      subst hr1
      cases h2 : readChars ⟨r.data, r.pos + 6⟩ n with
      | none => rw [h2] at h; exact absurd h (by simp)
      | some a2 =>
        obtain ⟨cs1, rr⟩ := a2
        rw [h2] at h
        dsimp only at h
        injection h with h
        injection h with hc hr
        subst hc; subst hr
        obtain ⟨hrr, hlen, hbd2⟩ := ih h2
        simp only at hrr hbd2
        refine ⟨by simp [hrr]; omega, by simp [hlen], fun _ => ?_⟩
        rcases Nat.eq_zero_or_pos n with hn | hn
        · subst hn; have := hbd1 (by omega); omega
        · have := hbd2 hn; omega

theorem readString_sound {r : Reader} {n : Nat} {s : String} {r2 : Reader}
    (h : readString r n = some (s, r2)) :
    r2 = ⟨r.data, r.pos + 6 * n⟩ ∧
      (0 < n → r.pos + 6 * n ≤ 8 * r.data.length) := by
  unfold readString at h
  cases h1 : readChars r n with
  | none => rw [h1] at h; exact absurd h (by simp)
  | some a =>
    obtain ⟨cs, r1⟩ := a
    rw [h1] at h
    dsimp only at h
    injection h with h
    injection h with hs hr
    subst hr
    obtain ⟨hr1, _, hbd⟩ := readChars_sound h1
    exact ⟨hr1, hbd⟩

theorem readBitFieldGo_sound {n : Nat} {r : Reader} {i : Nat}
    {ids : List Int} {r2 : Reader}
    (h : readBitFieldGo r i n = some (ids, r2)) :
    r2 = ⟨r.data, r.pos + n⟩ ∧
      (0 < n → r.pos + n ≤ 8 * r.data.length) := by
  induction n generalizing r i ids r2 with
  | zero =>
    unfold readBitFieldGo at h
    injection h with h
    injection h with hc hr
    subst hr
    exact ⟨by cases r with | mk d q => rfl, by omega⟩
  | succ n ih =>
    unfold readBitFieldGo at h
    cases h1 : readBool r with
    | none => rw [h1] at h; exact absurd h (by simp)
    | some a =>
      obtain ⟨b, r1⟩ := a
      rw [h1] at h
      dsimp only at h
      obtain ⟨hr1, hbd1⟩ := readBool_sound h1
      subst hr1
      cases h2 : readBitFieldGo ⟨r.data, r.pos + 1⟩ (i + 1) n with
      | none => rw [h2] at h; exact absurd h (by simp)
      | some a2 =>
        obtain ⟨ids1, rr⟩ := a2
        rw [h2] at h
        dsimp only at h
        injection h with h
        injection h with hc hr
        subst hr
        obtain ⟨hrr, hbd2⟩ := ih h2
        simp only at hrr hbd2
        refine ⟨by simp [hrr]; omega, fun _ => ?_⟩
        rcases Nat.eq_zero_or_pos n with hn | hn
        · subst hn; omega
        · have := hbd2 hn; omega

theorem readBitField_sound {r : Reader} {n : Nat} {ids : List Int}
    {r2 : Reader} (h : readBitField r n = some (ids, r2)) :
    r2 = ⟨r.data, r.pos + n⟩ ∧
      (0 < n → r.pos + n ≤ 8 * r.data.length) :=
  readBitFieldGo_sound h

theorem readRangeEntries_len {n : Nat} {r : Reader} {es : List RangeEntry}
    {r2 : Reader} (h : readRangeEntries r n = some (es, r2)) :
    es.length = n := by
  induction n generalizing r es r2 with
  | zero =>
    unfold readRangeEntries at h
    injection h with h
    injection h with hc hr
    subst hc
    rfl
  | succ n ih =>
    unfold readRangeEntries at h
    cases h1 : readRangeEntry r with
    | none => rw [h1] at h; exact absurd h (by simp)
    | some a =>
      obtain ⟨e, r1⟩ := a
      rw [h1] at h
      dsimp only at h
      cases h2 : readRangeEntries r1 n with
      | none => rw [h2] at h; exact absurd h (by simp)
      | some a2 =>
        obtain ⟨es1, rr⟩ := a2
        rw [h2] at h
        dsimp only at h
        injection h with h
        injection h with hc hr
        subst hc
        simp [ih h2]

/-! Facts about the decode chain of `Parse`. -/

theorem readStep_err {α : Type} (p : ParsedConsent) (o : Option (α × Reader))
    (k : α → Reader → ParsedConsent × Option ParseErr)
    (hk : ∀ a r, (k a r).2 = none ∨ (k a r).2 = some ParseErr.outOfRange) :
    (readStep p o k).2 = none ∨ (readStep p o k).2 = some ParseErr.outOfRange := by
  cases o with
  | none => exact Or.inr rfl
  | some a => exact hk a.1 a.2

theorem parseBody_err (b : List Nat) :
    (parseBody b).2 = none ∨ (parseBody b).2 = some ParseErr.outOfRange := by
  unfold parseBody
  apply readStep_err
  intro v r1
  apply readStep_err
  intro t r2
  apply readStep_err
  intro t2 r3
  apply readStep_err
  intro cid r4
  apply readStep_err
  intro cv r5
  apply readStep_err
  intro cs r6
  apply readStep_err
  intro cl r7
  apply readStep_err
  intro vlv r8
  apply readStep_err
  intro pa r9
  apply readStep_err
  intro mv r10
  apply readStep_err
  intro isR r11
  cases isR with
  | true =>
    apply readStep_err
    intro dc r12
    apply readStep_err
    intro ne r13
    apply readStep_err
    intro es r14
    exact Or.inl rfl
  | false =>
    apply readStep_err
    intro av r12
    exact Or.inl rfl

theorem parseBody_short {b : List Nat} (hlen : 8 * b.length < 173) :
    (parseBody b).2 = some ParseErr.outOfRange := by
  unfold parseBody
  cases h1 : readInt (⟨b, 0⟩ : Reader) 6 with
  | none => simp [readStep, h1]
  | some a1 =>
    obtain ⟨v, r1⟩ := a1
    obtain ⟨hr1, _, _⟩ := readInt_sound h1
    simp only at hr1
    subst hr1
    simp only [readStep, h1]
    cases h2 : readTime (⟨b, 0 + 6⟩ : Reader) with
    | none => simp [readStep, h2]
    | some a2 =>
      obtain ⟨t, r2⟩ := a2
      obtain ⟨hr2, _⟩ := readTime_sound h2
      simp only at hr2
      subst hr2
      simp only [readStep, h2]
      cases h3 : readTime (⟨b, 0 + 6 + 36⟩ : Reader) with
      | none => simp [readStep, h3]
      | some a3 =>
        obtain ⟨t2, r3⟩ := a3
        obtain ⟨hr3, _⟩ := readTime_sound h3
        simp only at hr3
        subst hr3
        simp only [readStep, h3]
        cases h4 : readInt (⟨b, 0 + 6 + 36 + 36⟩ : Reader) 12 with
        | none => simp [readStep, h4]
        | some a4 =>
          obtain ⟨cid, r4⟩ := a4
          obtain ⟨hr4, _, _⟩ := readInt_sound h4
          simp only at hr4
          subst hr4
          simp only [readStep, h4]
          cases h5 : readInt (⟨b, 0 + 6 + 36 + 36 + 12⟩ : Reader) 12 with
          | none => simp [readStep, h5]
          | some a5 =>
            obtain ⟨cv, r5⟩ := a5
            obtain ⟨hr5, _, _⟩ := readInt_sound h5
            simp only at hr5
            subst hr5
            simp only [readStep, h5]
            cases h6 : readInt (⟨b, 0 + 6 + 36 + 36 + 12 + 12⟩ : Reader) 6 with
            | none => simp [readStep, h6]
            | some a6 =>
              obtain ⟨cs, r6⟩ := a6
              obtain ⟨hr6, _, _⟩ := readInt_sound h6
              simp only at hr6
              subst hr6
              simp only [readStep, h6]
              cases h7 : readString (⟨b, 0 + 6 + 36 + 36 + 12 + 12 + 6⟩ : Reader) 2 with
              | none => simp [readStep, h7]
              | some a7 =>
                obtain ⟨cl, r7⟩ := a7
                obtain ⟨hr7, _⟩ := readString_sound h7
                simp only at hr7
                subst hr7
                simp only [readStep, h7]
                cases h8 : readInt (⟨b, 0 + 6 + 36 + 36 + 12 + 12 + 6 + 6 * 2⟩ : Reader) 12 with
                | none => simp [readStep, h8]
                | some a8 =>
                  obtain ⟨vlv, r8⟩ := a8
                  obtain ⟨hr8, _, _⟩ := readInt_sound h8
                  simp only at hr8
                  subst hr8
                  simp only [readStep, h8]
                  cases h9 : readBitField (⟨b, 0 + 6 + 36 + 36 + 12 + 12 + 6 + 6 * 2 + 12⟩ : Reader) 24 with
                  | none => simp [readStep, h9]
                  | some a9 =>
                    obtain ⟨pa, r9⟩ := a9
                    obtain ⟨hr9, _⟩ := readBitField_sound h9
                    simp only at hr9
                    subst hr9
                    simp only [readStep, h9]
                    cases h10 : readInt (⟨b, 0 + 6 + 36 + 36 + 12 + 12 + 6 + 6 * 2 + 12 + 24⟩ : Reader) 16 with
                    | none => simp [readStep, h10]
                    | some a10 =>
                      obtain ⟨mv, r10⟩ := a10
                      obtain ⟨hr10, _, _⟩ := readInt_sound h10
                      simp only at hr10
                      subst hr10
                      simp only [readStep, h10]
                      cases h11 : readBool (⟨b, 0 + 6 + 36 + 36 + 12 + 12 + 6 + 6 * 2 + 12 + 24 + 16⟩ : Reader) with
                      | none => simp [readStep, h11]
                      | some a11 =>
                        obtain ⟨isR, r11⟩ := a11
                        obtain ⟨hr11, hbd11⟩ := readBool_sound h11
                        simp only at hbd11
                        omega

theorem parseBody_modes {b : List Nat} {p : ParsedConsent}
    (hp : parseBody b = (p, none)) :
    (p.IsRangeEncoding = true →
        p.approvedVendorIDs = [] ∧
          p.RangeEntries.length = p.NumEntries.toNat) ∧
      (p.IsRangeEncoding = false → p.RangeEntries = []) := by
  unfold parseBody at hp
  cases h1 : readInt (⟨b, 0⟩ : Reader) 6 with
  | none => simp [readStep, h1] at hp
  | some a1 =>
    obtain ⟨v, r1⟩ := a1
    simp only [readStep, h1] at hp
    cases h2 : readTime r1 with
    | none => simp [readStep, h2] at hp
    | some a2 =>
      obtain ⟨t, r2⟩ := a2
      simp only [readStep, h2] at hp
      cases h3 : readTime r2 with
      | none => simp [readStep, h3] at hp
      | some a3 =>
        obtain ⟨t2, r3⟩ := a3
        simp only [readStep, h3] at hp
        cases h4 : readInt r3 12 with
        | none => simp [readStep, h4] at hp
        | some a4 =>
          obtain ⟨cid, r4⟩ := a4
          simp only [readStep, h4] at hp
          cases h5 : readInt r4 12 with
          | none => simp [readStep, h5] at hp
          | some a5 =>
            obtain ⟨cv, r5⟩ := a5
            simp only [readStep, h5] at hp
            cases h6 : readInt r5 6 with
            | none => simp [readStep, h6] at hp
            | some a6 =>
              obtain ⟨cs, r6⟩ := a6
              simp only [readStep, h6] at hp
              cases h7 : readString r6 2 with
              | none => simp [readStep, h7] at hp
              | some a7 =>
                obtain ⟨cl, r7⟩ := a7
                simp only [readStep, h7] at hp
                cases h8 : readInt r7 12 with
                | none => simp [readStep, h8] at hp
                | some a8 =>
                  obtain ⟨vlv, r8⟩ := a8
                  simp only [readStep, h8] at hp
                  cases h9 : readBitField r8 24 with
                  | none => simp [readStep, h9] at hp
                  | some a9 =>
                    obtain ⟨pa, r9⟩ := a9
                    simp only [readStep, h9] at hp
                    cases h10 : readInt r9 16 with
                    | none => simp [readStep, h10] at hp
                    | some a10 =>
                      obtain ⟨mv, r10⟩ := a10
                      simp only [readStep, h10] at hp
                      cases h11 : readBool r10 with
                      | none => simp [readStep, h11] at hp
                      | some a11 =>
                        obtain ⟨isR, r11⟩ := a11
                        simp only [readStep, h11] at hp
                        cases isR with
                        | true =>
                          simp only [if_pos] at hp
                          cases h12 : readBool r11 with
                          | none => simp [readStep, h12] at hp
                          | some a12 =>
                            obtain ⟨dc, r12⟩ := a12
                            simp only [readStep, h12] at hp
                            cases h13 : readInt r12 12 with
                            | none => simp [readStep, h13] at hp
                            | some a13 =>
                              obtain ⟨ne, r13⟩ := a13
                              simp only [readStep, h13] at hp
                              cases h14 : readRangeEntries r13 ne.toNat with
                              | none => simp [readStep, h14] at hp
                              | some a14 =>
                                obtain ⟨es, r14⟩ := a14
                                simp only [readStep, h14] at hp
                                injection hp with hpl hpr
                                subst hpl
                                refine ⟨fun _ => ⟨rfl, ?_⟩, fun hfalse => ?_⟩
                                · simpa using readRangeEntries_len h14
                                · simp at hfalse
                        | false =>
                          simp only [Bool.false_eq_true, if_neg,
                            not_false_eq_true] at hp
                          cases h12 : readBitField r11 mv.toNat with
                          | none => simp [readStep, h12] at hp
                          | some a12 =>
                            obtain ⟨av, r12⟩ := a12
                            simp only [readStep, h12] at hp
                            injection hp with hpl hpr
                            subst hpl
                            refine ⟨fun htrue => ?_, fun _ => rfl⟩
                            simp at htrue

/-! Facts about the query methods. -/

theorem scanEntries_hit {v : Int} {d : Bool} {es : List RangeEntry}
    (h : ∃ e ∈ es, e.StartVendorID ≤ v ∧ v ≤ e.EndVendorID) :
    scanEntries v d es = !d := by
  induction es with
  | nil => simp at h
  | cons e rest ih =>
    unfold scanEntries
    by_cases hc : e.StartVendorID ≤ v ∧ v ≤ e.EndVendorID
    · rw [if_pos hc]
    · rw [if_neg hc]
      apply ih
      rcases h with ⟨e2, hmem, hb⟩
      rcases List.mem_cons.mp hmem with he | he
      · exact absurd (he ▸ hb) hc
      · exact ⟨e2, he, hb⟩

theorem scanEntries_miss {v : Int} {d : Bool} {es : List RangeEntry}
    (h : ∀ e ∈ es, ¬(e.StartVendorID ≤ v ∧ v ≤ e.EndVendorID)) :
    scanEntries v d es = d := by
  induction es with
  | nil => rfl
  | cons e rest ih =>
    unfold scanEntries
    rw [if_neg (h e (List.mem_cons_self e rest))]
    exact ih fun e2 he2 => h e2 (List.mem_cons_of_mem e he2)

theorem everyPurposeAllowed_iff (p : ParsedConsent) (ids : List Int) :
    EveryPurposeAllowed p ids = true ↔
      ∀ i ∈ ids, p.PurposesAllowed.contains i = true := by
  induction ids with
  | nil => simp [EveryPurposeAllowed]
  | cons i rest ih =>
    unfold EveryPurposeAllowed
    by_cases hc : p.PurposesAllowed.contains i
    · rw [if_pos hc]
      rw [ih]
      constructor
      · intro hall j hj
        rcases List.mem_cons.mp hj with hj | hj
        · exact hj ▸ hc
        · exact hall j hj
      · intro hall j hj
        exact hall j (List.mem_cons_of_mem i hj)
    · rw [if_neg hc]
      constructor
      · intro hfalse
        exact absurd hfalse (by simp)
      · intro hall
        exact absurd (hall i (List.mem_cons_self i rest)) hc

/-! Facts about character runs and read composition. -/

theorem readChars_groups (n : Nat) (r : Reader)
    (h : r.pos + 6 * n ≤ 8 * r.data.length) :
    ∃ cs r2, readChars r n = some (cs, r2) ∧
      r2 = ⟨r.data, r.pos + 6 * n⟩ ∧ cs.length = n ∧
      ∀ i, i < n →
        ∃ v rf, readBits (⟨r.data, r.pos + 6 * i⟩ : Reader) 6 = some (v, rf) ∧
          v < 64 ∧ cs.get? i = some (Char.ofNat (65 + v)) := by
  induction n generalizing r with
  | zero =>
    refine ⟨[], r, rfl, by cases r with | mk d q => rfl, rfl, ?_⟩
    intro i hi
    omega
  | succ n ih =>
    obtain ⟨v, r1, h6⟩ := readBits_isSome (n := 6) (r := r) (by omega)
    obtain ⟨hr1, hv, _⟩ := readBits_sound h6
    subst hr1
    obtain ⟨cs1, r2, hcs, hr2, hlen, hidx⟩ :=
      ih ⟨r.data, r.pos + 6⟩ (by simp; omega)
    have hvlt : v < 64 := hv
    have hmod : (65 + v) % 256 = 65 + v := Nat.mod_eq_of_lt (by omega)
    refine ⟨Char.ofNat (65 + v) :: cs1, r2, ?_, ?_, by simp [hlen], ?_⟩
    · unfold readChars
      rw [h6]
      dsimp only
      rw [hcs]
      dsimp only
      rw [hmod]
    · rw [hr2]
      simp only
      congr 1
      omega
    · intro i hi
      cases i with
      | zero =>
        refine ⟨v, ⟨r.data, r.pos + 6⟩, ?_, hvlt, rfl⟩
        have : r.pos + 6 * 0 = r.pos := by omega
        rw [this]
        cases r with | mk d q => exact h6
      | succ i =>
        obtain ⟨v2, rf, hb, hv2, hg⟩ := hidx i (by omega)
        refine ⟨v2, rf, ?_, hv2, hg⟩
        have : r.pos + 6 * (i + 1) = r.pos + 6 + 6 * i := by ring
        rw [this]
        simpa using hb

theorem readBit_head (x : Nat) (rest : List Nat) (i : Nat) (h : i < 8) :
    readBit ⟨x :: rest, i⟩ =
      some ((x >>> (7 - i % 8)) % 2, ⟨x :: rest, i + 1⟩) := by
  unfold readBit
  rw [if_pos]
  · simp [Nat.div_eq_of_lt h]
  · simp only [List.length_cons]
    omega

theorem readBits_add_split (n m : Nat) (r : Reader)
    (h : r.pos + (n + m) ≤ 8 * r.data.length) :
    ∃ v1 r1 v2 r2, readBits r n = some (v1, r1) ∧
      readBits r1 m = some (v2, r2) ∧ v1 < 2 ^ n ∧ v2 < 2 ^ m ∧
      readBits r (n + m) = some (v1 * 2 ^ m + v2, r2) := by
  obtain ⟨v1, r1, ha⟩ := readBits_isSome (n := n) (r := r) (by omega)
  obtain ⟨hr1, hv1, _⟩ := readBits_sound ha
  obtain ⟨v2, r2, hb⟩ :=
    readBits_isSome (n := m) (r := r1) (by rw [hr1]; simp; omega)
  obtain ⟨hr2, hv2, _⟩ := readBits_sound hb
  refine ⟨v1, r1, v2, r2, ha, hb, hv1, hv2, ?_⟩
  rw [readBits_add n m r, ha]
  simp only [Option.some_bind]
  rw [hb]
  simp only [Option.some_bind]

/-! The claims. -/

/-- Claim C1: on the fixture string `BONMj34ONMj34ABACDENALqAAAAAplY`,
`Parse` succeeds (no error) and the decoded record has Version 1, CMPID 1,
CMPVersion 2, ConsentScreen 3, ConsentLanguage `EN`, VendorListVersion 11,
the purpose set `{1, 3, 5}`, MaxVendorID 10, bit-field mode
(IsRangeEncoding false), and the approved vendor set
`{1, 2, 5, 7, 9, 10}` (sets are listed as their true keys in ascending
order).  The created and last-updated instants are the fixture time
1525378200.8 s. -/
theorem claim1_fixture_decode :
    Parse "BONMj34ONMj34ABACDENALqAAAAAplY" =
      (some ⟨1, ⟨1525378200, 800000000⟩, ⟨1525378200, 800000000⟩, 1, 2, 3,
        "EN", 11, [1, 3, 5], 10, false, [1, 2, 5, 7, 9, 10], false, 0, []⟩,
        none) := by
  rfl

/-- Claim C2: for every record in range-encoding mode and every vendor id,
`VendorAllowed` returns the negation of `DefaultConsent` when some range
entry contains the id between its inclusive bounds, and `DefaultConsent`
itself when no entry contains it; sortedness or disjointness of the
entries is never required, and a first matching entry fixes the same
result as any other match. -/
theorem claim2_vendorAllowed_range (p : ParsedConsent) (v : Int)
    (h : p.IsRangeEncoding = true) :
    ((∃ e ∈ p.RangeEntries, e.StartVendorID ≤ v ∧ v ≤ e.EndVendorID) →
        VendorAllowed p v = !p.DefaultConsent) ∧
      ((∀ e ∈ p.RangeEntries, ¬(e.StartVendorID ≤ v ∧ v ≤ e.EndVendorID)) →
        VendorAllowed p v = p.DefaultConsent) := by
  unfold VendorAllowed
  simp only [h, if_true]
  exact ⟨fun he => scanEntries_hit he, fun hn => scanEntries_miss hn⟩

theorem claim2_witness :
    ((ParsedConsent.mk 1 ⟨0, 0⟩ ⟨0, 0⟩ 1 2 3 "EN" 11 [1, 3, 5] 10 true []
        false 1 [⟨123, 123⟩]).IsRangeEncoding = true) ∧
      (((∃ e ∈ (ParsedConsent.mk 1 ⟨0, 0⟩ ⟨0, 0⟩ 1 2 3 "EN" 11 [1, 3, 5] 10
            true [] false 1 [⟨123, 123⟩]).RangeEntries,
          e.StartVendorID ≤ (123 : Int) ∧ (123 : Int) ≤ e.EndVendorID) →
          VendorAllowed (ParsedConsent.mk 1 ⟨0, 0⟩ ⟨0, 0⟩ 1 2 3 "EN" 11
            [1, 3, 5] 10 true [] false 1 [⟨123, 123⟩]) 123 =
            !(ParsedConsent.mk 1 ⟨0, 0⟩ ⟨0, 0⟩ 1 2 3 "EN" 11 [1, 3, 5] 10
              true [] false 1 [⟨123, 123⟩]).DefaultConsent) ∧
        ((∀ e ∈ (ParsedConsent.mk 1 ⟨0, 0⟩ ⟨0, 0⟩ 1 2 3 "EN" 11 [1, 3, 5] 10
            true [] false 1 [⟨123, 123⟩]).RangeEntries,
          ¬(e.StartVendorID ≤ (123 : Int) ∧ (123 : Int) ≤ e.EndVendorID)) →
          VendorAllowed (ParsedConsent.mk 1 ⟨0, 0⟩ ⟨0, 0⟩ 1 2 3 "EN" 11
            [1, 3, 5] 10 true [] false 1 [⟨123, 123⟩]) 123 =
            (ParsedConsent.mk 1 ⟨0, 0⟩ ⟨0, 0⟩ 1 2 3 "EN" 11 [1, 3, 5] 10
              true [] false 1 [⟨123, 123⟩]).DefaultConsent)) :=
  ⟨rfl, claim2_vendorAllowed_range
    (ParsedConsent.mk 1 ⟨0, 0⟩ ⟨0, 0⟩ 1 2 3 "EN" 11 [1, 3, 5] 10 true []
      false 1 [⟨123, 123⟩]) 123 rfl⟩

/-- Claim C3 as stated is false: on the truncated input `BONM` the bit
stream ends inside the Created timestamp, `Parse` returns the typed
out-of-range error, and the caller nevertheless receives a partially
populated record whose Version field has already been decoded to 1 (the
named-return design of `Parse`). -/
theorem claim3_counterexample :
    (Parse "BONM").2 = some ParseErr.outOfRange ∧
      (Parse "BONM").1 ≠ none ∧
      ((Parse "BONM").1.map ParsedConsent.Version) = some 1 := by
  decide

/-- Claim C3 (amended): for every input on which a bit-level read fails —
base64 decoding succeeded but the field-decoding body errored, whether in
the fixed header or in the variable-length vendor sections — `Parse`
aborts the whole decode and returns the single typed out-of-range error,
but together with the partially populated named-return record decoded so
far, not with no record. -/
theorem claim3_amended_partial_record (s : String) (b : List Nat)
    (hb : base64Decode s = some b) (hfail : (parseBody b).2 ≠ none) :
    ∃ p, Parse s = (some p, some ParseErr.outOfRange) := by
  unfold Parse
  rw [hb]
  dsimp only
  have h := parseBody_err b
  rcases h with h | h
  · exact absurd h hfail
  · cases hpb : parseBody b with
    | mk p e =>
      rw [hpb] at h
      dsimp at h
      subst h
      exact ⟨p, rfl⟩

theorem claim3_witness :
    (base64Decode "BONMj34ONMj34ABACDENALqAAAAAqAB" =
        some [4, 227, 76, 143, 126, 14, 52, 200, 247, 224, 0, 64, 8, 49,
          13, 0, 186, 128, 0, 0, 0, 168, 0] ∧
      (parseBody [4, 227, 76, 143, 126, 14, 52, 200, 247, 224, 0, 64, 8,
          49, 13, 0, 186, 128, 0, 0, 0, 168, 0]).2 ≠ none) ∧
      ∃ p, Parse "BONMj34ONMj34ABACDENALqAAAAAqAB" =
        (some p, some ParseErr.outOfRange) :=
  ⟨⟨by decide, by decide⟩,
    claim3_amended_partial_record "BONMj34ONMj34ABACDENALqAAAAAqAB"
      [4, 227, 76, 143, 126, 14, 52, 200, 247, 224, 0, 64, 8, 49, 13, 0,
        186, 128, 0, 0, 0, 168, 0] (by decide) (by decide)⟩

/-- Claim C4 as stated is false: on the one-byte buffer `0x5a` (binary
`01011010`), `ReadBitField` of width 6 applied at the start returns the
set `{2, 4, 5}` (bits at zero-based positions 1, 3 and 4 are set), not a
map whose only true key is 2. -/
theorem claim4_counterexample :
    readBitField (⟨[90], 0⟩ : Reader) 6 = some ([2, 4, 5], ⟨[90], 6⟩) ∧
      ¬((readBitField (⟨[90], 0⟩ : Reader) 6).map (fun a => a.1) =
          some [2]) := by
  decide

/-- Claim C4 (amended): for every buffer whose first byte is `0x5a`,
`ReadBitField` of width 6 applied at the start returns exactly the set
`{2, 4, 5}` and leaves the cursor at bit 6.  (The set `{2}` arises from
the width-2 read of the test suite, not a width-6 read.) -/
theorem claim4_amended (rest : List Nat) :
    readBitField (⟨90 :: rest, 0⟩ : Reader) 6 =
      some ([2, 4, 5], ⟨90 :: rest, 6⟩) := by
  simp [readBitField, readBitFieldGo, readBool, readBits, readBit_head]

/-- Claim C5: whenever at least `6 * n` bits remain, `ReadString` consumes
exactly `n` groups of 6 bits, maps the `i`-th group value `v` (always
below 64) to the character of code `65 + v` (65 is the code of the
uppercase letter A, so group value 0 yields A — not the lowercase base of
the superseded draft), and returns their concatenation. -/
theorem claim5_readString (n : Nat) (r : Reader)
    (h : r.pos + 6 * n ≤ 8 * r.data.length) :
    ∃ cs r2, readString r n = some (String.mk cs, r2) ∧
      r2 = ⟨r.data, r.pos + 6 * n⟩ ∧ cs.length = n ∧
      ∀ i, i < n →
        ∃ v rf,
          readBits (⟨r.data, r.pos + 6 * i⟩ : Reader) 6 = some (v, rf) ∧
            v < 64 ∧ cs.get? i = some (Char.ofNat (65 + v)) := by
  obtain ⟨cs, r2, hcs, hr2, hlen, hidx⟩ := readChars_groups n r h
  refine ⟨cs, r2, ?_, hr2, hlen, hidx⟩
  unfold readString
  rw [hcs]

theorem claim5_witness :
    ((⟨[4, 227], 0⟩ : Reader).pos + 6 * 2 ≤
        8 * (⟨[4, 227], 0⟩ : Reader).data.length) ∧
      ∃ cs r2, readString (⟨[4, 227], 0⟩ : Reader) 2 =
          some (String.mk cs, r2) ∧
        r2 = ⟨(⟨[4, 227], 0⟩ : Reader).data,
          (⟨[4, 227], 0⟩ : Reader).pos + 6 * 2⟩ ∧ cs.length = 2 ∧
        ∀ i, i < 2 →
          ∃ v rf,
            readBits (⟨(⟨[4, 227], 0⟩ : Reader).data,
              (⟨[4, 227], 0⟩ : Reader).pos + 6 * i⟩ : Reader) 6 =
                some (v, rf) ∧
              v < 64 ∧ cs.get? i = some (Char.ofNat (65 + v)) :=
  ⟨by decide, claim5_readString 2 ⟨[4, 227], 0⟩ (by decide)⟩

/-- Claim C6: `ReadTime` on a reader at the start of the bytes
`0x38 0xdf 0x6b 0x35 0xb0` consumes 36 bits (15266657115 deciseconds) and
returns the UTC instant of 1526665711 seconds and 500 milliseconds after
the Unix epoch, leaving exactly 4 bits unread. -/
theorem claim6_readTime_fixture :
    readTime (⟨[0x38, 0xdf, 0x6b, 0x35, 0xb0], 0⟩ : Reader) =
      some (⟨1526665711, 500000000⟩,
        ⟨[0x38, 0xdf, 0x6b, 0x35, 0xb0], 36⟩) ∧
      numUnread ⟨[0x38, 0xdf, 0x6b, 0x35, 0xb0], 36⟩ = 4 := by
  decide

/-- Claim C7: for widths `n, m ≥ 1` with `n + m ≤ 64` and enough bits at
the cursor, reading `n` bits and then `m` bits yields the same two values
and the same final cursor as a single `(n + m)`-bit read split at bit `n`:
the combined value is `v1 * 2 ^ m + v2` with `v2 < 2 ^ m`, so `v1` is the
high `n` bits and `v2` the low `m` bits. -/
theorem claim7_readBits_split (n m : Nat) (r : Reader) (h1 : 1 ≤ n)
    (h2 : 1 ≤ m) (h3 : n + m ≤ 64)
    (h : r.pos + (n + m) ≤ 8 * r.data.length) :
    ∃ v1 r1 v2 r2, readBits r n = some (v1, r1) ∧
      readBits r1 m = some (v2, r2) ∧ v1 < 2 ^ n ∧ v2 < 2 ^ m ∧
      readBits r (n + m) = some (v1 * 2 ^ m + v2, r2) :=
  readBits_add_split n m r h

theorem claim7_witness :
    (1 ≤ 2 ∧ 1 ≤ 3 ∧ 2 + 3 ≤ 64 ∧
        (⟨[170], 0⟩ : Reader).pos + (2 + 3) ≤
          8 * (⟨[170], 0⟩ : Reader).data.length) ∧
      ∃ v1 r1 v2 r2, readBits (⟨[170], 0⟩ : Reader) 2 = some (v1, r1) ∧
        readBits r1 3 = some (v2, r2) ∧ v1 < 2 ^ 2 ∧ v2 < 2 ^ 3 ∧
        readBits (⟨[170], 0⟩ : Reader) (2 + 3) =
          some (v1 * 2 ^ 3 + v2, r2) :=
  ⟨⟨by decide, by decide, by decide, by decide⟩,
    claim7_readBits_split 2 3 ⟨[170], 0⟩ (by decide) (by decide) (by decide)
      (by decide)⟩

/-- Claim C8: whenever `Parse` succeeds, the decoded mode flag decides
which vendor representation is populated: in range mode the approved
vendor set is empty and the entry list has length exactly the decoded
12-bit NumEntries field; in bit-field mode the entry list is empty. -/
theorem claim8_modes (s : String) (p : ParsedConsent)
    (h : Parse s = (some p, none)) :
    (p.IsRangeEncoding = true →
        p.approvedVendorIDs = [] ∧
          p.RangeEntries.length = p.NumEntries.toNat) ∧
      (p.IsRangeEncoding = false → p.RangeEntries = []) := by
  unfold Parse at h
  cases hb : base64Decode s with
  | none => rw [hb] at h; exact absurd h (by simp)
  | some b =>
    rw [hb] at h
    dsimp only at h
    cases hpb : parseBody b with
    | mk q e =>
      rw [hpb] at h
      dsimp at h
      injection h with h1 h2
      injection h1 with h1
      subst h1
      subst h2
      exact parseBody_modes hpb

theorem claim8_witness :
    (Parse "BONMj34ONMj34ABACDENALqAAAAAqABAD2AAAAAAAAAAAAAAAAAAAAAAAAAA" =
        (some ⟨1, ⟨1525378200, 800000000⟩, ⟨1525378200, 800000000⟩, 1, 2, 3,
          "EN", 11, [1, 3, 5], 10, true, [], false, 1, [⟨123, 123⟩]⟩,
          none)) ∧
      (((ParsedConsent.mk 1 ⟨1525378200, 800000000⟩ ⟨1525378200, 800000000⟩
          1 2 3 "EN" 11 [1, 3, 5] 10 true [] false 1
          [⟨123, 123⟩]).IsRangeEncoding = true →
        (ParsedConsent.mk 1 ⟨1525378200, 800000000⟩ ⟨1525378200, 800000000⟩
          1 2 3 "EN" 11 [1, 3, 5] 10 true [] false 1
          [⟨123, 123⟩]).approvedVendorIDs = [] ∧
        (ParsedConsent.mk 1 ⟨1525378200, 800000000⟩ ⟨1525378200, 800000000⟩
          1 2 3 "EN" 11 [1, 3, 5] 10 true [] false 1
          [⟨123, 123⟩]).RangeEntries.length =
          (ParsedConsent.mk 1 ⟨1525378200, 800000000⟩
            ⟨1525378200, 800000000⟩ 1 2 3 "EN" 11 [1, 3, 5] 10 true [] false
            1 [⟨123, 123⟩]).NumEntries.toNat) ∧
      ((ParsedConsent.mk 1 ⟨1525378200, 800000000⟩ ⟨1525378200, 800000000⟩
          1 2 3 "EN" 11 [1, 3, 5] 10 true [] false 1
          [⟨123, 123⟩]).IsRangeEncoding = false →
        (ParsedConsent.mk 1 ⟨1525378200, 800000000⟩ ⟨1525378200, 800000000⟩
          1 2 3 "EN" 11 [1, 3, 5] 10 true [] false 1
          [⟨123, 123⟩]).RangeEntries = [])) :=
  ⟨by rfl,
    claim8_modes "BONMj34ONMj34ABACDENALqAAAAAqABAD2AAAAAAAAAAAAAAAAAAAAAAAAAA"
      (ParsedConsent.mk 1 ⟨1525378200, 800000000⟩ ⟨1525378200, 800000000⟩
        1 2 3 "EN" 11 [1, 3, 5] 10 true [] false 1 [⟨123, 123⟩])
      (by rfl)⟩

/-- Claim C9: `EveryPurposeAllowed` is vacuously true on the empty
sequence, and for every sequence of purpose ids it is true exactly when
every requested id is a member of the purpose set, hence false whenever at
least one requested id is absent. -/
theorem claim9_everyPurposeAllowed (p : ParsedConsent) (ids : List Int) :
    EveryPurposeAllowed p [] = true ∧
      (EveryPurposeAllowed p ids = true ↔
        ∀ i ∈ ids, p.PurposesAllowed.contains i = true) ∧
      ((∃ i ∈ ids, ¬p.PurposesAllowed.contains i = true) →
        EveryPurposeAllowed p ids = false) := by
  refine ⟨rfl, everyPurposeAllowed_iff p ids, ?_⟩
  intro habs
  rcases habs with ⟨i, hi, hni⟩
  cases hall : EveryPurposeAllowed p ids with
  | false => rfl
  | true => exact absurd ((everyPurposeAllowed_iff p ids).mp hall i hi) hni

/-- Claim C10: `Parse` is total over all input strings and always hands
back a record-and-error pair: on a base64 failure it returns no record and
the typed corrupt-input error, and otherwise it always returns a record
together with either no error or the typed out-of-range error into which
every reader panic is recovered — no panic escapes. -/
theorem claim10_parse_total (s : String) :
    Parse s = (none, some ParseErr.corruptInput) ∨
      ∃ p, (Parse s).1 = some p ∧
        ((Parse s).2 = none ∨ (Parse s).2 = some ParseErr.outOfRange) := by
  unfold Parse
  cases hb : base64Decode s with
  | none => exact Or.inl rfl
  | some b =>
    right
    dsimp only
    cases hpb : parseBody b with
    | mk p e =>
      dsimp only
      refine ⟨p, rfl, ?_⟩
      have herr := parseBody_err b
      rw [hpb] at herr
      exact herr

end Iabconsent
